import Mathlib

/-!
# Verification of the edit-file-lines server

A shallow embedding of the `mcp-edit-file-lines` repository
(`src/index.ts` plus the spec for the utility modules whose sources are
not part of the tree: `fileEditor`, `stateManager`, `approveEdit`,
`lineInfo`).  Machine strings are modelled by Lean `String`
(a wrapper around `List Char`), JS `Map`s by association lists, the
filesystem by a partial map from path strings to contents, and
`Date.now()` by an explicit `now : Nat` in milliseconds.
-/

namespace EditFileLines

/-! ## Edit engine data model

Modelled from the spec: the Edit Engine (`src/utils/fileEditor.ts` is not
in the tree; its unit tests are).  An operation replaces the inclusive
1-indexed line range `[startLine, endLine]` with the lines of
`newContent`.  Line numbers are `Int` so that the invalid inputs the
tests exercise (`0`, `-1`) are representable. -/

structure EditOp where
  startLine : Int
  endLine : Int
  newContent : String
deriving DecidableEq, Repr

/-- Modelled from the spec: the closed set of validation error kinds of
the Edit Engine (§7 of the spec); the rendered messages below are the
ones the unit tests in the tree assert on. -/
inductive EditError where
  | invalidLineNumber
  | invalidRange (s e : Int)
  | overlappingEdit (line : Int)
deriving DecidableEq, Repr

def renderEditError : EditError → String
  | .invalidLineNumber => "Line numbers must be positive integers"
  | .invalidRange s e =>
      "Invalid range: start line " ++ toString s ++ " is greater than end line " ++ toString e
  | .overlappingEdit n => "Line " ++ toString n ++ " is affected by multiple edits"

/-- Two inclusive ranges `[a.startLine, a.endLine]`, `[b.startLine, b.endLine]`
intersect. -/
def overlapsB (a b : EditOp) : Bool :=
  max a.startLine b.startLine ≤ min a.endLine b.endLine

/-- The shared line number cited by the overlap error. -/
def conflictLine (a b : EditOp) : Int := max a.startLine b.startLine

/-- `n` is one of the lines the operation replaces. -/
def coversLine (op : EditOp) (n : Int) : Prop := op.startLine ≤ n ∧ n ≤ op.endLine

instance (op : EditOp) (n : Int) : Decidable (coversLine op n) := by
  unfold coversLine; infer_instance

/-- Modelled from the spec: validation step 1 — every operation's line
numbers must be positive (test message: "Line numbers must be positive
integers"). -/
def checkPositive (ops : List EditOp) : Option EditError :=
  (ops.find? fun op => op.startLine ≤ 0 || op.endLine ≤ 0).map fun _ => .invalidLineNumber

/-- Modelled from the spec: validation step 2 — `startLine ≤ endLine`. -/
def checkRange (ops : List EditOp) : Option EditError :=
  (ops.find? fun op => op.endLine < op.startLine).map fun op =>
    .invalidRange op.startLine op.endLine

/-- Modelled from the spec: validation step 3 — exhaustive pairwise scan
for two operations whose ranges share a line; returns the cited line. -/
def findConflict : List EditOp → Option Int
  | [] => none
  | op :: rest =>
    match rest.find? (fun b => overlapsB op b) with
    | some b => some (conflictLine op b)
    | none => findConflict rest

def checkOverlap (ops : List EditOp) : Option EditError :=
  (findConflict ops).map .overlappingEdit

/-- Modelled from the spec: batch validation, checks 1–3 in the spec's
order, first violation aborting the whole batch. -/
def validateOps (ops : List EditOp) : Option EditError :=
  match checkPositive ops with
  | some e => some e
  | none =>
    match checkRange ops with
    | some e => some e
    | none => checkOverlap ops

/-! ## Splitting and joining lines -/

/-- Split a character list on a separator; always returns at least one
(possibly empty) segment, like JS `String.prototype.split`. -/
def splitOnChar (sep : Char) : List Char → List (List Char)
  | [] => [[]]
  | c :: rest =>
    if c = sep then [] :: splitOnChar sep rest
    else
      match splitOnChar sep rest with
      | [] => [[c]]
      | seg :: segs => (c :: seg) :: segs

def splitLines (s : String) : List String :=
  (splitOnChar '\n' s.data).map String.mk

/-- The content's final character is a line break. -/
def endsWithNewline (s : String) : Bool := s.data.getLast? == some '\n'

/-- Modelled from the spec (§3 FileSnapshot): an ordered sequence of
lines plus an end-of-file trailing-newline flag. -/
structure FileSnapshot where
  lines : List String
  trailingNewline : Bool

def parseContent (s : String) : FileSnapshot :=
  if endsWithNewline s then ⟨splitLines (String.mk s.data.dropLast), true⟩
  else ⟨splitLines s, false⟩

def reconstruct (snap : FileSnapshot) : String :=
  String.intercalate "\n" snap.lines ++ (if snap.trailingNewline then "\n" else "")

/-! ## Application in descending order of startLine -/

/-- Descending comparison on `startLine` used to normalise application
order (spec §4.1: "applied in descending order of startLine"). -/
def descStart (a b : EditOp) : Prop := b.startLine ≤ a.startLine

instance : DecidableRel descStart := fun a b => by unfold descStart; infer_instance

instance : IsTotal EditOp descStart :=
  ⟨fun a b => le_total b.startLine a.startLine⟩

instance : IsTrans EditOp descStart :=
  ⟨fun _ _ _ h1 h2 => le_trans h2 h1⟩

/-- Strict version of `descStart`; antisymmetric, which is what makes the
sorted order unique once start lines are distinct. -/
def strictDescStart (a b : EditOp) : Prop := b.startLine < a.startLine

instance : IsAntisymm EditOp strictDescStart :=
  ⟨fun _ _ h1 h2 => absurd (lt_trans h1 h2) (lt_irrefl _)⟩

def sortOps (ops : List EditOp) : List EditOp := List.insertionSort descStart ops

/-- Splice `newContent`'s lines in place of the (1-indexed, inclusive)
range `[startLine, endLine]`. -/
def applyOp (lines : List String) (op : EditOp) : List String :=
  lines.take (op.startLine - 1).toNat ++ splitLines op.newContent ++ lines.drop op.endLine.toNat

def applyOps (lines : List String) (ops : List EditOp) : List String :=
  (sortOps ops).foldl applyOp lines

/-- Modelled from the spec: the Edit Engine's pure core — validate the
batch, then apply it to the parsed line sequence and reconstruct the
content, preserving the trailing-newline flag. -/
def editContent (content : String) (ops : List EditOp) : Except EditError String :=
  match validateOps ops with
  | some e => .error e
  | none =>
    let snap := parseContent content
    .ok (reconstruct ⟨applyOps snap.lines ops, snap.trailingNewline⟩)

/-! ## Validity of a batch -/

def noOverlap (a b : EditOp) : Prop := ¬ overlapsB a b = true

instance : DecidableRel noOverlap := fun a b => by unfold noOverlap; infer_instance

/-- The batch invariants of spec §3: positive line numbers, ordered
ranges, and pairwise disjoint ranges. -/
def ValidBatch (ops : List EditOp) : Prop :=
  (∀ op ∈ ops, 0 < op.startLine ∧ 0 < op.endLine) ∧
  (∀ op ∈ ops, op.startLine ≤ op.endLine) ∧
  ops.Pairwise noOverlap

instance (ops : List EditOp) : Decidable (ValidBatch ops) := by
  unfold ValidBatch; infer_instance

lemma overlapsB_symm (a b : EditOp) : overlapsB a b = overlapsB b a := by
  unfold overlapsB
  rw [max_comm, min_comm]

lemma noOverlap_symm : Symmetric noOverlap := by
  intro a b h
  unfold noOverlap at *
  rw [overlapsB_symm]
  exact h

lemma checkPositive_eq_none {ops : List EditOp}
    (h1 : ∀ op ∈ ops, 0 < op.startLine ∧ 0 < op.endLine) :
    checkPositive ops = none := by
  have hf : ops.find? (fun op => op.startLine ≤ 0 || op.endLine ≤ 0) = none := by
    rw [List.find?_eq_none]
    intro op hm
    have := h1 op hm
    simp only [Bool.or_eq_true, decide_eq_true_eq, not_or, not_le]
    exact ⟨this.1, this.2⟩
  unfold checkPositive
  rw [hf]
  rfl

lemma checkRange_eq_none {ops : List EditOp}
    (h2 : ∀ op ∈ ops, op.startLine ≤ op.endLine) :
    checkRange ops = none := by
  have hf : ops.find? (fun op => op.endLine < op.startLine) = none := by
    rw [List.find?_eq_none]
    intro op hm
    simp only [decide_eq_true_eq, not_lt]
    exact h2 op hm
  unfold checkRange
  rw [hf]
  rfl

lemma findConflict_eq_none {ops : List EditOp} (h : ops.Pairwise noOverlap) :
    findConflict ops = none := by
  induction ops with
  | nil => rfl
  | cons op rest ih =>
    rw [List.pairwise_cons] at h
    have hfind : rest.find? (fun b => overlapsB op b) = none := by
      rw [List.find?_eq_none]
      exact fun b hb => h.1 b hb
    unfold findConflict
    rw [hfind]
    exact ih h.2

lemma validateOps_eq_none {ops : List EditOp} (h : ValidBatch ops) :
    validateOps ops = none := by
  unfold validateOps checkOverlap
  rw [checkPositive_eq_none h.1, checkRange_eq_none h.2.1,
    findConflict_eq_none h.2.2]
  rfl

lemma validBatch_perm {ops ops' : List EditOp} (h : ValidBatch ops)
    (hp : ops.Perm ops') : ValidBatch ops' := by
  refine ⟨fun op hm => h.1 op (hp.mem_iff.mpr hm),
    fun op hm => h.2.1 op (hp.mem_iff.mpr hm), ?_⟩
  exact (hp.pairwise_iff fun hab => noOverlap_symm hab).mp h.2.2

/-- Non-overlapping nonempty ranges have distinct start lines. -/
lemma validBatch_distinct_starts {ops : List EditOp} (h : ValidBatch ops) :
    ops.Pairwise (fun a b => a.startLine ≠ b.startLine) := by
  refine h.2.2.imp_of_mem ?_
  intro a b ha hb hno heq
  apply hno
  unfold overlapsB
  have haa := h.2.1 a ha
  have hbb := h.2.1 b hb
  simp only [decide_eq_true_eq, le_min_iff]
  rw [← heq, max_self]
  exact ⟨haa, by rw [heq]; exact hbb⟩

lemma sortOps_perm (ops : List EditOp) : (sortOps ops).Perm ops :=
  List.perm_insertionSort descStart ops

lemma sortOps_eq {ops ops' : List EditOp} (h : ValidBatch ops)
    (hp : ops.Perm ops') : sortOps ops = sortOps ops' := by
  have h' := validBatch_perm h hp
  have s1 : (sortOps ops).Pairwise descStart :=
    List.sorted_insertionSort descStart ops
  have s2 : (sortOps ops').Pairwise descStart :=
    List.sorted_insertionSort descStart ops'
  have symm_ne : Symmetric (fun a b : EditOp => a.startLine ≠ b.startLine) :=
    fun _ _ hab => hab.symm
  have d1 : (sortOps ops).Pairwise (fun a b => a.startLine ≠ b.startLine) :=
    ((sortOps_perm ops).pairwise_iff fun hab => symm_ne hab).mpr
      (validBatch_distinct_starts h)
  have d2 : (sortOps ops').Pairwise (fun a b => a.startLine ≠ b.startLine) :=
    ((sortOps_perm ops').pairwise_iff fun hab => symm_ne hab).mpr
      (validBatch_distinct_starts h')
  have st1 : (sortOps ops).Pairwise strictDescStart :=
    (s1.and d1).imp fun hab => lt_of_le_of_ne hab.1 hab.2.symm
  have st2 : (sortOps ops').Pairwise strictDescStart :=
    (s2.and d2).imp fun hab => lt_of_le_of_ne hab.1 hab.2.symm
  have hperm : (sortOps ops).Perm (sortOps ops') :=
    ((sortOps_perm ops).trans hp).trans (sortOps_perm ops').symm
  exact List.eq_of_perm_of_sorted hperm st1 st2

/-- C3: for a valid non-overlapping batch, the result of the edit engine
does not depend on the submission order of the operations, because
application normalises to descending `startLine` order. -/
theorem editContent_order_independent (content : String) (ops ops' : List EditOp)
    (hv : ValidBatch ops) (hp : ops.Perm ops') :
    editContent content ops = editContent content ops' := by
  have hv' := validBatch_perm hv hp
  unfold editContent applyOps
  rw [validateOps_eq_none hv, validateOps_eq_none hv', sortOps_eq hv hp]

/-- Witness for C3 at the concrete batch of the repository's reverse-order
test, in both submission orders. -/
theorem editContent_order_independent_witness :
    ValidBatch [⟨1, 1, "first line"⟩, ⟨4, 4, "fourth line"⟩] ∧
    editContent "line 1\nline 2\nline 3\nline 4\nline 5\n"
        [⟨1, 1, "first line"⟩, ⟨4, 4, "fourth line"⟩] =
      editContent "line 1\nline 2\nline 3\nline 4\nline 5\n"
        [⟨4, 4, "fourth line"⟩, ⟨1, 1, "first line"⟩] :=
  ⟨by decide, editContent_order_independent _ _ _ (by decide) (by decide)⟩

/-! ## Overlap detection (C4) -/

lemma coversLine_conflictLine {a b : EditOp} (h : overlapsB a b = true) :
    coversLine a (conflictLine a b) ∧ coversLine b (conflictLine a b) := by
  unfold overlapsB at h
  simp only [decide_eq_true_eq, max_le_iff, le_min_iff] at h
  unfold coversLine conflictLine
  exact ⟨⟨le_max_left _ _, max_le h.1.1 h.1.2⟩,
    ⟨le_max_right _ _, max_le h.2.1 h.2.2⟩⟩

lemma overlapsB_of_covers {a b : EditOp} {n : Int}
    (ha : coversLine a n) (hb : coversLine b n) : overlapsB a b = true := by
  unfold overlapsB
  rw [decide_eq_true_eq]
  exact le_trans (max_le ha.1 hb.1) (le_min ha.2 hb.2)

/-- The exhaustive pairwise scan finds a conflict whenever any two
operations of the batch (in any two positions, adjacent or not) share a
line, and the cited line is shared by such a pair. -/
lemma findConflict_some {ops : List EditOp}
    (h : ∃ a b, [a, b].Sublist ops ∧ overlapsB a b = true) :
    ∃ m a b, findConflict ops = some m ∧ [a, b].Sublist ops ∧
      coversLine a m ∧ coversLine b m := by
  induction ops with
  | nil =>
    obtain ⟨a, b, hsub, _⟩ := h
    exact absurd (List.eq_nil_of_sublist_nil hsub) (by simp)
  | cons op rest ih =>
    cases hfind : rest.find? (fun b => overlapsB op b) with
    | some b =>
      have hov : overlapsB op b = true := List.find?_some hfind
      have hmem : b ∈ rest := List.mem_of_find?_eq_some hfind
      refine ⟨conflictLine op b, op, b, ?_, ?_, coversLine_conflictLine hov⟩
      · unfold findConflict
        rw [hfind]
      · exact List.Sublist.cons₂ op (List.singleton_sublist.mpr hmem)
    | none =>
      obtain ⟨a, b, hsub, hov⟩ := h
      have hnone := List.find?_eq_none.mp hfind
      cases hsub with
      | cons _ htail =>
        obtain ⟨m, a', b', hfc, hsub', hca, hcb⟩ := ih ⟨a, b, htail, hov⟩
        refine ⟨m, a', b', ?_, hsub'.cons op, hca, hcb⟩
        unfold findConflict
        rw [hfind]
        exact hfc
      | cons₂ _ htail =>
        have hbmem : b ∈ rest := List.singleton_sublist.mp htail
        exact absurd hov (by simpa using hnone b hbmem)

/-- C4 (amended): once every operation passes the per-operation checks
(positive line numbers, `startLine ≤ endLine`), a batch in which any two
operations — in any submission order, adjacent or not — share a line
number is rejected with `overlappingEdit`, citing a line shared by an
overlapping pair. -/
theorem validateOps_overlap_detected (ops : List EditOp)
    (h1 : ∀ op ∈ ops, 0 < op.startLine ∧ 0 < op.endLine)
    (h2 : ∀ op ∈ ops, op.startLine ≤ op.endLine)
    (h3 : ∃ a b n, [a, b].Sublist ops ∧ coversLine a n ∧ coversLine b n) :
    ∃ m a b, validateOps ops = some (.overlappingEdit m) ∧ [a, b].Sublist ops ∧
      coversLine a m ∧ coversLine b m := by
  obtain ⟨a, b, n, hsub, hca, hcb⟩ := h3
  obtain ⟨m, a', b', hfc, hsub', hca', hcb'⟩ :=
    findConflict_some ⟨a, b, hsub, overlapsB_of_covers hca hcb⟩
  refine ⟨m, a', b', ?_, hsub', hca', hcb'⟩
  unfold validateOps checkOverlap
  rw [checkPositive_eq_none h1, checkRange_eq_none h2, hfc]
  rfl

/-- Witness for C4 (amended) at the overlapping batch of the repository's
overlap test, submitted in reversed order so the conflicting pair is not
adjacent after sorting by position. -/
theorem validateOps_overlap_detected_witness :
    (∃ m a b,
      validateOps [⟨2, 3, "overlap 2"⟩, ⟨1, 2, "overlap 1"⟩] =
        some (.overlappingEdit m) ∧
      [a, b].Sublist [⟨2, 3, "overlap 2"⟩, ⟨1, 2, "overlap 1"⟩] ∧
      coversLine a m ∧ coversLine b m) :=
  validateOps_overlap_detected _ (by decide) (by decide)
    ⟨⟨2, 3, "overlap 2"⟩, ⟨1, 2, "overlap 1"⟩, 2, by decide, by decide, by decide⟩

/-- Counterexample to C4 as stated: a batch whose second and third
operations share line 2, yet validation reports `invalidRange` for the
first operation (the per-operation checks run before the overlap scan),
not `overlappingEdit`. -/
theorem validateOps_overlap_counterexample :
    coversLine ⟨1, 2, "a"⟩ 2 ∧ coversLine ⟨2, 3, "b"⟩ 2 ∧
    [EditOp.mk 1 2 "a", EditOp.mk 2 3 "b"].Sublist
      [⟨3, 2, "x"⟩, ⟨1, 2, "a"⟩, ⟨2, 3, "b"⟩] ∧
    validateOps [⟨3, 2, "x"⟩, ⟨1, 2, "a"⟩, ⟨2, 3, "b"⟩] =
      some (.invalidRange 3 2) ∧
    ¬ ∃ m, validateOps [⟨3, 2, "x"⟩, ⟨1, 2, "a"⟩, ⟨2, 3, "b"⟩] =
      some (.overlappingEdit m) := by
  refine ⟨by decide, by decide, by decide, rfl, ?_⟩
  rintro ⟨m, hm⟩
  rw [show validateOps [⟨3, 2, "x"⟩, ⟨1, 2, "a"⟩, ⟨2, 3, "b"⟩] =
      some (.invalidRange 3 2) from rfl] at hm
  simp at hm

/-- C8: an operation with a non-positive start or end line makes the
whole batch fail with `invalidLineNumber`; this verdict stands whatever
range or overlap violations the batch also contains, i.e. the
per-operation positivity check precedes the range and overlap checks. -/
theorem validateOps_invalidLineNumber (ops : List EditOp)
    (h : ∃ op ∈ ops, op.startLine ≤ 0 ∨ op.endLine ≤ 0) :
    validateOps ops = some .invalidLineNumber := by
  obtain ⟨op, hm, hle⟩ := h
  have : (ops.find? fun op => op.startLine ≤ 0 || op.endLine ≤ 0).isSome := by
    rw [List.find?_isSome]
    refine ⟨op, hm, ?_⟩
    simp only [Bool.or_eq_true, decide_eq_true_eq]
    exact hle
  obtain ⟨bad, hbad⟩ := Option.isSome_iff_exists.mp this
  unfold validateOps checkPositive
  rw [hbad]
  rfl

/-- Witness for C8 at the zero-line-number batch of the repository's
tests, with an overlap also present —the positivity error wins. -/
theorem validateOps_invalidLineNumber_witness :
    validateOps [⟨0, 1, "invalid"⟩, ⟨1, 2, "a"⟩, ⟨2, 3, "b"⟩] =
      some .invalidLineNumber :=
  validateOps_invalidLineNumber _ ⟨⟨0, 1, "invalid"⟩, by decide, by decide⟩

/-! ## Trailing newline preservation (C6) -/

lemma endsWithNewline_reconstruct (lines : List String) :
    endsWithNewline (reconstruct ⟨lines, true⟩) = true := by
  unfold reconstruct endsWithNewline
  rw [if_pos rfl, String.data_append,
    show ("\n" : String).data = ['\n'] from rfl, List.getLast?_concat]
  rfl

/-- C6: when the original content ends with a line break, any content the
edit engine reconstructs ends with a line break too, whatever the batch
did. -/
theorem editContent_preserves_trailing_newline (content out : String)
    (ops : List EditOp) (hnl : endsWithNewline content = true)
    (h : editContent content ops = .ok out) : endsWithNewline out = true := by
  unfold editContent at h
  cases hv : validateOps ops with
  | some e => rw [hv] at h; exact absurd h (by simp)
  | none =>
    rw [hv] at h
    simp only [Except.ok.injEq] at h
    have hflag : (parseContent content).trailingNewline = true := by
      unfold parseContent
      rw [hnl]
      rfl
    rw [hflag] at h
    rw [← h]
    exact endsWithNewline_reconstruct _

/-- Witness for C6: the single-line replacement of the repository's tests
keeps the trailing newline. -/
theorem editContent_preserves_trailing_newline_witness :
    endsWithNewline "line 1\nline 2\nline 3\n" = true ∧
    endsWithNewline "line 1\nreplaced line\nline 3\n" = true :=
  ⟨by decide, editContent_preserves_trailing_newline
    "line 1\nline 2\nline 3\n" "line 1\nreplaced line\nline 3\n"
    [⟨2, 2, "replaced line"⟩] (by decide) rfl⟩

/-! ## Pending-Edit Store (C2)

Modelled from the spec: `src/utils/stateManager.ts` and
`src/utils/approveEdit.ts` are not in the tree; the store contract is
§4.2 of the spec plus the tool description in `src/index.ts` ("The
stateId is only valid for 1 minute"). -/

/-- A proposed-but-unapplied edit batch, keyed by token. -/
structure PendingEdit where
  path : String
  batch : List EditOp
  createdAt : Nat
deriving DecidableEq, Repr

/-- The token-to-entry map of the store; a JS `Map` modelled as an
association list with unique keys by construction. -/
def StateStore := List (String × PendingEdit)

/-- Fixed time-to-live of a pending entry, in milliseconds. -/
def ttlMillis : Nat := 60000

def storeLookup (store : StateStore) (token : String) : Option PendingEdit :=
  (store.find? (fun kv => kv.1 == token)).map Prod.snd

def removeToken (store : StateStore) (token : String) : StateStore :=
  store.filter (fun kv => kv.1 != token)

/-- Modelled from the spec: `consume(token)` — if a live (non-expired)
entry exists for the token, remove it and return it; an entry whose age
exceeds the TTL at the moment of lookup is treated as absent. -/
def consumeState (store : StateStore) (now : Nat) (token : String) :
    Option (PendingEdit × StateStore) :=
  match storeLookup store token with
  | some e =>
    if now - e.createdAt ≤ ttlMillis then some (e, removeToken store token)
    else none
  | none => none

/-- Modelled from the spec: `save(path, batch)` records the entry under a
freshly generated token with `createdAt := now`. -/
def saveState (store : StateStore) (now : Nat) (token : String)
    (path : String) (batch : List EditOp) : StateStore :=
  (token, ⟨path, batch, now⟩) :: store

lemma storeLookup_removeToken (store : StateStore) (token : String) :
    storeLookup (removeToken store token) token = none := by
  unfold storeLookup removeToken
  induction store with
  | nil => rfl
  | cons kv rest ih =>
    rw [List.filter_cons]
    by_cases h : kv.1 = token
    · rw [if_neg (by simp [h])]
      exact ih
    · rw [if_pos (by simp [h]), List.find?_cons_of_neg _ (by simp [h])]
      exact ih

/-- C2: `consume` fails exactly when no live entry exists for the token
(never created, already consumed, or older than the TTL at lookup time);
on success it returns the stored entry, removes it, and no further
`consume` of the same token can ever succeed on the resulting store. -/
theorem consumeState_spec (store : StateStore) (now : Nat) (token : String) :
    (consumeState store now token = none ↔
      ¬ ∃ e, storeLookup store token = some e ∧ now - e.createdAt ≤ ttlMillis) ∧
    (∀ e store', consumeState store now token = some (e, store') →
      storeLookup store token = some e ∧ now - e.createdAt ≤ ttlMillis ∧
      store' = removeToken store token ∧
      ∀ now', consumeState store' now' token = none) := by
  constructor
  · constructor
    · rintro h ⟨e, he, hl⟩
      unfold consumeState at h
      rw [he] at h
      dsimp only at h
      rw [if_pos hl] at h
      exact absurd h (by simp)
    · intro h
      unfold consumeState
      cases hl : storeLookup store token with
      | none => rfl
      | some e =>
        dsimp only
        rw [if_neg]
        intro hle
        exact h ⟨e, hl, hle⟩
  · intro e store' h
    unfold consumeState at h
    cases hl : storeLookup store token with
    | none => rw [hl] at h; exact absurd h (by simp)
    | some e' =>
      rw [hl] at h
      dsimp only at h
      by_cases hle : now - e'.createdAt ≤ ttlMillis
      · rw [if_pos hle] at h
        simp only [Option.some.injEq, Prod.mk.injEq] at h
        obtain ⟨he, hs⟩ := h
        subst he
        subst hs
        refine ⟨rfl, hle, rfl, ?_⟩
        intro now'
        unfold consumeState
        rw [storeLookup_removeToken]
      · rw [if_neg hle] at h
        exact absurd h (by simp)

def demoStore : StateStore :=
  [("state-0", ⟨"/data/f.txt", [⟨2, 2, "replaced line"⟩], 1000⟩)]

/-- Witness for C2 on a one-entry store: a live consume at 50 s returns
the entry, a repeated consume fails at every later time, and a consume at
70 s (age 69 s > 60 s) fails. -/
theorem consumeState_spec_witness :
    storeLookup demoStore "state-0" =
      some ⟨"/data/f.txt", [⟨2, 2, "replaced line"⟩], 1000⟩ ∧
    (∀ now', consumeState ([] : StateStore) now' "state-0" = none) ∧
    consumeState demoStore 70000 "state-0" = none := by
  have h2 := (consumeState_spec demoStore 50000 "state-0").2
    ⟨"/data/f.txt", [⟨2, 2, "replaced line"⟩], 1000⟩ [] rfl
  refine ⟨h2.1, h2.2.2.2, ?_⟩
  refine (consumeState_spec demoStore 70000 "state-0").1.mpr ?_
  rintro ⟨e, he, hle⟩
  rw [show storeLookup demoStore "state-0" =
    some ⟨"/data/f.txt", [⟨2, 2, "replaced line"⟩], 1000⟩ from rfl] at he
  simp only [Option.some.injEq] at he
  rw [← he] at hle
  exact absurd hle (by decide)

/-! ## Path normalisation and admission (C1, C10)

This part embeds `normalizePath`, `expandHome` and `validatePath` from
`src/index.ts`.  JS `toLowerCase` is modelled on ASCII letters, the Node
`path` module's posix normalisation on `/`-separated segment lists, and
`fs.realpath` as an oracle `String → Option String` supplied by the
environment (`none` models a rejected promise). -/

/-- ASCII uppercase-to-lowercase table. -/
def lowerTable : List (Char × Char) :=
  [('A', 'a'), ('B', 'b'), ('C', 'c'), ('D', 'd'), ('E', 'e'), ('F', 'f'),
   ('G', 'g'), ('H', 'h'), ('I', 'i'), ('J', 'j'), ('K', 'k'), ('L', 'l'),
   ('M', 'm'), ('N', 'n'), ('O', 'o'), ('P', 'p'), ('Q', 'q'), ('R', 'r'),
   ('S', 's'), ('T', 't'), ('U', 'u'), ('V', 'v'), ('W', 'w'), ('X', 'x'),
   ('Y', 'y'), ('Z', 'z')]

def tableLookup : List (Char × Char) → Char → Option Char
  | [], _ => none
  | (a, b) :: rest, c => if c = a then some b else tableLookup rest c

/-- Model of JS `String.prototype.toLowerCase` on a character. -/
def charLower (c : Char) : Char := (tableLookup lowerTable c).getD c

/-- Model of JS `String.prototype.toLowerCase`. -/
def lowerStr (s : String) : String := String.mk (s.data.map charLower)

lemma tableLookup_mem {l : List (Char × Char)} {c d : Char}
    (h : tableLookup l c = some d) : (c, d) ∈ l := by
  induction l with
  | nil => cases h
  | cons kv rest ih =>
    obtain ⟨a, b⟩ := kv
    unfold tableLookup at h
    by_cases hc : c = a
    · rw [if_pos hc] at h
      injection h with hb
      rw [hc, hb]
      exact List.mem_cons_self _ _
    · rw [if_neg hc] at h
      exact List.mem_cons_of_mem _ (ih h)

/-- Lowercasing fixes, and only produces from itself, any character that
is neither an ASCII uppercase nor lowercase letter. -/
lemma charLower_eq_fixed {c x : Char}
    (hx : tableLookup lowerTable x = none)
    (hsnd : ∀ p ∈ lowerTable, p.2 ≠ x) :
    charLower c = x ↔ c = x := by
  constructor
  · intro h
    unfold charLower at h
    cases hl : tableLookup lowerTable c with
    | none => rw [hl] at h; exact h
    | some d =>
      rw [hl] at h
      simp only [Option.getD_some] at h
      exact absurd h (hsnd _ (tableLookup_mem hl))
  · intro h
    subst h
    unfold charLower
    rw [hx]
    rfl

lemma charLower_slash (c : Char) : charLower c = '/' ↔ c = '/' :=
  charLower_eq_fixed (by decide) (by decide)

lemma charLower_dot (c : Char) : charLower c = '.' ↔ c = '.' :=
  charLower_eq_fixed (by decide) (by decide)

lemma charLower_tilde (c : Char) : charLower c = '~' ↔ c = '~' :=
  charLower_eq_fixed (by decide) (by decide)

/-! Generic commutation of the segment machinery with a character map
that fixes the path-syntax characters. -/

section MapCommute

variable {f : Char → Char}

lemma seg_map_eq_dot (hdot : ∀ c, f c = '.' ↔ c = '.') (seg : List Char) :
    seg.map f = ['.'] ↔ seg = ['.'] := by
  cases seg with
  | nil => simp
  | cons a rest =>
    cases rest with
    | nil => simp [hdot a]
    | cons b rest2 => simp

lemma seg_map_eq_dotdot (hdot : ∀ c, f c = '.' ↔ c = '.') (seg : List Char) :
    seg.map f = ['.', '.'] ↔ seg = ['.', '.'] := by
  cases seg with
  | nil => simp
  | cons a rest =>
    cases rest with
    | nil => simp
    | cons b rest2 =>
      cases rest2 with
      | nil => simp [hdot a, hdot b]
      | cons d rest3 => simp

lemma splitOnChar_map (hsl : ∀ c, f c = '/' ↔ c = '/') :
    ∀ l : List Char,
      splitOnChar '/' (l.map f) = (splitOnChar '/' l).map (List.map f)
  | [] => rfl
  | c :: rest => by
    rw [List.map_cons]
    unfold splitOnChar
    by_cases h : c = '/'
    · rw [if_pos ((hsl c).mpr h), if_pos h, splitOnChar_map hsl rest,
        List.map_cons]
      rfl
    · rw [if_neg (fun hc => h ((hsl c).mp hc)), if_neg h,
        splitOnChar_map hsl rest]
      cases splitOnChar '/' rest with
      | nil => rfl
      | cons seg segs => rfl

end MapCommute

/-- One step of Node's `normalizeString`: drop empty and `.` segments,
let `..` pop the previous segment (or be kept when ascending above the
root of a relative path is allowed), keep everything else. -/
def normStep (allow : Bool) (acc : List (List Char)) (seg : List Char) :
    List (List Char) :=
  if seg = [] then acc
  else if seg = ['.'] then acc
  else if seg = ['.', '.'] then
    match acc.getLast? with
    | some t =>
      if t = ['.', '.'] then (if allow then acc ++ [seg] else acc)
      else acc.dropLast
    | none => if allow then [seg] else []
  else acc ++ [seg]

def normSegs (allow : Bool) (segs : List (List Char)) : List (List Char) :=
  segs.foldl (normStep allow) []

/-- Join segments with `/` separators (no leading or trailing
separator). -/
def joinSegs : List (List Char) → List Char
  | [] => []
  | [seg] => seg
  | seg :: seg2 :: rest => seg ++ '/' :: joinSegs (seg2 :: rest)

section MapCommute2

variable {f : Char → Char}

lemma normStep_map (hdot : ∀ c, f c = '.' ↔ c = '.') (allow : Bool)
    (acc : List (List Char)) (seg : List Char) :
    normStep allow (acc.map (List.map f)) (seg.map f) =
      (normStep allow acc seg).map (List.map f) := by
  unfold normStep
  by_cases h0 : seg = []
  · rw [if_pos (by rw [h0]; rfl), if_pos h0]
  · rw [if_neg (fun hc => h0 (by simpa using hc)), if_neg h0]
    by_cases h1 : seg = ['.']
    · rw [if_pos ((seg_map_eq_dot hdot seg).mpr h1), if_pos h1]
    · rw [if_neg (fun hc => h1 ((seg_map_eq_dot hdot seg).mp hc)), if_neg h1]
      by_cases h2 : seg = ['.', '.']
      · rw [if_pos ((seg_map_eq_dotdot hdot seg).mpr h2), if_pos h2,
          List.getLast?_map]
        cases hl : acc.getLast? with
        | none =>
          cases allow <;> simp [h2]
        | some t =>
          simp only [Option.map_some']
          have hfd : f '.' = '.' := (hdot '.').mpr rfl
          by_cases ht : t = ['.', '.']
          · rw [if_pos (by rw [ht]; simp [hfd]), if_pos ht]
            cases allow <;> simp [h2]
          · rw [if_neg (fun hc => ht ((seg_map_eq_dotdot hdot t).mp hc)),
              if_neg ht, List.map_dropLast]
      · rw [if_neg (fun hc => h2 ((seg_map_eq_dotdot hdot seg).mp hc)),
          if_neg h2, List.map_append]
        rfl

lemma normSegs_go_map (hdot : ∀ c, f c = '.' ↔ c = '.') (allow : Bool) :
    ∀ (segs : List (List Char)) (acc : List (List Char)),
      (segs.map (List.map f)).foldl (normStep allow) (acc.map (List.map f)) =
        (segs.foldl (normStep allow) acc).map (List.map f)
  | [], _ => rfl
  | seg :: rest, acc => by
    rw [List.map_cons, List.foldl_cons, List.foldl_cons,
      normStep_map hdot allow acc seg, normSegs_go_map hdot allow rest _]

lemma normSegs_map (hdot : ∀ c, f c = '.' ↔ c = '.') (allow : Bool)
    (segs : List (List Char)) :
    normSegs allow (segs.map (List.map f)) =
      (normSegs allow segs).map (List.map f) :=
  normSegs_go_map hdot allow segs []

lemma joinSegs_map (hsl : f '/' = '/') :
    ∀ segs : List (List Char),
      joinSegs (segs.map (List.map f)) = (joinSegs segs).map f
  | [] => rfl
  | [_] => rfl
  | seg :: seg2 :: rest => by
    have ih := joinSegs_map hsl (seg2 :: rest)
    rw [List.map_cons] at ih
    show List.map f seg ++ '/' ::
        joinSegs (List.map f seg2 :: List.map (List.map f) rest) =
      List.map f (seg ++ '/' :: joinSegs (seg2 :: rest))
    rw [List.map_append, List.map_cons, hsl, ih]

end MapCommute2

lemma charLower_slash_fix : charLower '/' = '/' := (charLower_slash '/').mpr rfl

lemma head_map_slash_iff (l : List Char) :
    (l.map charLower).head? = some '/' ↔ l.head? = some '/' := by
  rw [List.head?_map]
  cases l.head? with
  | none => simp
  | some c => simp [charLower_slash c]

lemma getLast_map_slash_iff (l : List Char) :
    (l.map charLower).getLast? = some '/' ↔ l.getLast? = some '/' := by
  rw [List.getLast?_map]
  cases l.getLast? with
  | none => simp
  | some c => simp [charLower_slash c]

/-- Model of Node `path.posix.normalize`: collapse separators, resolve
`.` and `..` (keeping leading `..` only for relative paths), preserve a
trailing separator. -/
def pathNormalize (s : String) : String :=
  if s.data = [] then "."
  else
    let isAbs : Bool := decide (s.data.head? = some '/')
    let trailing : Bool := decide (s.data.getLast? = some '/')
    let core : List Char := joinSegs (normSegs (!isAbs) (splitOnChar '/' s.data))
    if core = [] then (if isAbs then "/" else if trailing then "./" else ".")
    else
      String.mk ((if isAbs then ['/'] else []) ++ core ++
        (if trailing then ['/'] else []))

/-- `normalizePath` from `src/index.ts`: `path.normalize(p).toLowerCase()`. -/
def normalizePath (p : String) : String := lowerStr (pathNormalize p)

lemma mk_ifcore_lower (l pre post : List Char) (x : String)
    (hpre : pre.map charLower = pre) (hpost : post.map charLower = post)
    (hx : lowerStr x = x) :
    (if l.map charLower = [] then x
      else String.mk (pre ++ l.map charLower ++ post)) =
    lowerStr (if l = [] then x else String.mk (pre ++ l ++ post)) := by
  by_cases hc : l = []
  · rw [if_pos (by rw [hc]; rfl), if_pos hc, hx]
  · rw [if_neg (by simpa using hc), if_neg hc]
    show String.mk _ = String.mk (List.map charLower (pre ++ l ++ post))
    rw [List.map_append, List.map_append, hpre, hpost]

/-- Normalisation then lowercasing equals lowercasing then normalisation:
the segment logic only inspects `/`, `.` and emptiness, all fixed by
`charLower`. -/
lemma pathNormalize_lower (s : String) :
    pathNormalize (lowerStr s) = lowerStr (pathNormalize s) := by
  have hdata : (lowerStr s).data = s.data.map charLower := rfl
  unfold pathNormalize
  rw [hdata]
  by_cases hnil : s.data = []
  · rw [if_pos (by rw [hnil]; rfl), if_pos hnil]
    rfl
  · rw [if_neg (by simpa using hnil), if_neg hnil]
    dsimp only
    rw [decide_eq_decide.mpr (head_map_slash_iff s.data),
      decide_eq_decide.mpr (getLast_map_slash_iff s.data),
      splitOnChar_map charLower_slash,
      normSegs_map charLower_dot,
      joinSegs_map charLower_slash_fix]
    exact mk_ifcore_lower _ _ _ _
      (by cases decide (s.data.head? = some '/') <;>
        simp [charLower_slash_fix])
      (by cases decide (s.data.getLast? = some '/') <;>
        simp [charLower_slash_fix])
      (by cases decide (s.data.head? = some '/') <;>
        cases decide (s.data.getLast? = some '/') <;> rfl)

lemma normalizePath_congr {p q : String} (h : lowerStr p = lowerStr q) :
    normalizePath p = normalizePath q := by
  unfold normalizePath
  rw [← pathNormalize_lower p, ← pathNormalize_lower q, h]

/-! ### expandHome and resolve -/

/-- The `filepath.startsWith("~/")` test of `expandHome`. -/
def startsWithTildeSlash (p : String) : Bool :=
  match p.data with
  | c1 :: c2 :: _ => c1 = '~' && c2 = '/'
  | _ => false

/-- `expandHome` from `src/index.ts`.  `path.join(homedir, p.slice(1))`
followed by the caller's `path.resolve` is equivalent to plain
concatenation followed by that same resolve, which is how the join is
modelled. -/
def expandHome (home : String) (p : String) : String :=
  if startsWithTildeSlash p = true then home ++ String.mk (p.data.drop 1)
  else if p = "~" then home
  else p

/-- Model of Node `path.resolve` (posix) as used in `validatePath`:
resolve against `cwd` when the path is relative, producing an absolute
path without a trailing separator. -/
def resolveAbs (cwd : String) (p : String) : String :=
  let base : List Char :=
    if p.data.head? = some '/' then p.data else cwd.data ++ '/' :: p.data
  String.mk ('/' :: joinSegs (normSegs false (splitOnChar '/' base)))

/-- Node `path.dirname` (posix). -/
def dirname (s : String) : String :=
  let core := ((s.data.reverse.dropWhile (fun c => c ≠ '/')).drop 1).reverse
  if core = [] then (if s.data.head? = some '/' then "/" else ".")
  else String.mk core

lemma charLower_congr_fixed {a b x : Char} (hab : charLower a = charLower b)
    (hx : ∀ c, charLower c = x ↔ c = x) : a = x ↔ b = x := by
  constructor
  · intro ha
    exact (hx b).mp (by rw [← hab, ha]; exact (hx x).mpr rfl)
  · intro hb
    exact (hx a).mp (by rw [hab, hb]; exact (hx x).mpr rfl)

lemma startsWithTildeSlash_congr {p q : String}
    (h : lowerStr p = lowerStr q) :
    startsWithTildeSlash p = startsWithTildeSlash q := by
  have hd : p.data.map charLower = q.data.map charLower := congrArg String.data h
  unfold startsWithTildeSlash
  cases hp : p.data with
  | nil =>
    cases hq : q.data with
    | nil => rfl
    | cons b bs => rw [hp, hq] at hd; simp at hd
  | cons a as =>
    cases hq : q.data with
    | nil => rw [hp, hq] at hd; simp at hd
    | cons b bs =>
      rw [hp, hq] at hd
      simp only [List.map_cons, List.cons.injEq] at hd
      obtain ⟨hab, hd2⟩ := hd
      cases as with
      | nil =>
        cases bs with
        | nil => rfl
        | cons b2 bs2 => simp at hd2
      | cons a2 as2 =>
        cases bs with
        | nil => simp at hd2
        | cons b2 bs2 =>
          simp only [List.map_cons, List.cons.injEq] at hd2
          show (decide (a = '~') && decide (a2 = '/')) =
            (decide (b = '~') && decide (b2 = '/'))
          rw [decide_eq_decide.mpr (charLower_congr_fixed hab charLower_tilde),
            decide_eq_decide.mpr (charLower_congr_fixed hd2.1 charLower_slash)]

lemma map_charLower_eq_tilde {l : List Char} (h : l.map charLower = ['~']) :
    l = ['~'] := by
  cases l with
  | nil => simp at h
  | cons a as =>
    cases as with
    | nil =>
      simp only [List.map_cons, List.map_nil, List.cons.injEq, and_true] at h
      rw [(charLower_tilde a).mp h]
    | cons b bs => simp at h

lemma eq_tilde_congr {p q : String} (h : lowerStr p = lowerStr q) :
    p = "~" ↔ q = "~" := by
  have hd : p.data.map charLower = q.data.map charLower := congrArg String.data h
  constructor
  · intro hp
    apply String.ext
    apply map_charLower_eq_tilde
    rw [← hd, show p.data = ['~'] from congrArg String.data hp]
    rfl
  · intro hq
    apply String.ext
    apply map_charLower_eq_tilde
    rw [hd, show q.data = ['~'] from congrArg String.data hq]
    rfl

lemma expandHome_lower {home p q : String} (h : lowerStr p = lowerStr q) :
    lowerStr (expandHome home p) = lowerStr (expandHome home q) := by
  have hd : p.data.map charLower = q.data.map charLower := congrArg String.data h
  unfold expandHome
  by_cases h1 : startsWithTildeSlash p = true
  · rw [if_pos h1, if_pos (startsWithTildeSlash_congr h ▸ h1)]
    apply String.ext
    show (home.data ++ p.data.drop 1).map charLower =
      (home.data ++ q.data.drop 1).map charLower
    rw [List.map_append, List.map_append, List.map_drop, List.map_drop, hd]
  · rw [if_neg h1, if_neg (fun hq => h1 ((startsWithTildeSlash_congr h).symm ▸ hq))]
    by_cases h2 : p = "~"
    · rw [if_pos h2, if_pos ((eq_tilde_congr h).mp h2)]
    · rw [if_neg h2, if_neg (fun hq => h2 ((eq_tilde_congr h).mpr hq))]
      exact h

lemma resolveAbs_lower {cwd x y : String} (h : lowerStr x = lowerStr y) :
    lowerStr (resolveAbs cwd x) = lowerStr (resolveAbs cwd y) := by
  have hd : x.data.map charLower = y.data.map charLower := congrArg String.data h
  have hh : (x.data.head? = some '/') ↔ (y.data.head? = some '/') := by
    rw [← head_map_slash_iff x.data, hd, head_map_slash_iff]
  unfold resolveAbs
  dsimp only
  by_cases hx : x.data.head? = some '/'
  · rw [if_pos hx, if_pos (hh.mp hx)]
    apply String.ext
    show ('/' :: joinSegs (normSegs false (splitOnChar '/' x.data))).map
        charLower =
      ('/' :: joinSegs (normSegs false (splitOnChar '/' y.data))).map charLower
    rw [List.map_cons, List.map_cons, charLower_slash_fix,
      ← joinSegs_map charLower_slash_fix, ← joinSegs_map charLower_slash_fix,
      ← normSegs_map charLower_dot, ← normSegs_map charLower_dot,
      ← splitOnChar_map charLower_slash, ← splitOnChar_map charLower_slash, hd]
  · rw [if_neg hx, if_neg (fun hy => hx (hh.mpr hy))]
    apply String.ext
    show ('/' :: joinSegs (normSegs false
        (splitOnChar '/' (cwd.data ++ '/' :: x.data)))).map charLower =
      ('/' :: joinSegs (normSegs false
        (splitOnChar '/' (cwd.data ++ '/' :: y.data)))).map charLower
    rw [List.map_cons, List.map_cons, charLower_slash_fix,
      ← joinSegs_map charLower_slash_fix, ← joinSegs_map charLower_slash_fix,
      ← normSegs_map charLower_dot, ← normSegs_map charLower_dot,
      ← splitOnChar_map charLower_slash, ← splitOnChar_map charLower_slash,
      List.map_append, List.map_append, List.map_cons, List.map_cons,
      charLower_slash_fix, hd]

/-! ### validatePath -/

/-- The process environment of `validatePath`: the allowed directories
computed at startup, `fs.realpath` as an oracle (`none` = rejected
promise), `process.cwd()` and `os.homedir()`. -/
structure PathEnv where
  allowedDirectories : List String
  realpath : String → Option String
  cwd : String
  home : String

/-- JS `String.prototype.startsWith`. -/
def jsStartsWith (s pre : String) : Bool := pre.data.isPrefixOf s.data

/-- The admission test of `validatePath`:
`allowedDirectories.some((dir) => normalized.startsWith(dir))` — a bare
string-prefix test. -/
def isPathAllowed (env : PathEnv) (normalized : String) : Bool :=
  env.allowedDirectories.any fun dir => jsStartsWith normalized dir

/-- The parent-directory fallback of `validatePath` (its inner
`try/catch`).  Note: in the source the "parent directory outside allowed
directories" `throw` sits inside the inner `try`, so its own `catch`
swallows it and reports "Parent directory does not exist" instead. -/
def validateParent (env : PathEnv) (absolute : String) : Except String String :=
  let parentDir := dirname absolute
  match env.realpath parentDir with
  | some realParent =>
    if isPathAllowed env (normalizePath realParent) = true then .ok absolute
    else .error ("Parent directory does not exist: " ++ parentDir)
  | none => .error ("Parent directory does not exist: " ++ parentDir)

/-- `validatePath` from `src/index.ts`.  Faithful to two structural facts
of the source: (1) containment in an allowed directory is a bare
string-prefix test on the lowercased normalised path, with no separator
boundary; (2) the "symlink target outside allowed directories" `throw`
sits inside its own `try` block, so the `catch` swallows it and control
falls through to the parent-directory fallback. -/
def validatePath (env : PathEnv) (requestedPath : String) :
    Except String String :=
  let expandedPath := expandHome env.home requestedPath
  let absolute := resolveAbs env.cwd expandedPath
  let normalizedRequested := normalizePath absolute
  if isPathAllowed env normalizedRequested = true then
    match env.realpath absolute with
    | some realPath =>
      if isPathAllowed env (normalizePath realPath) = true then .ok realPath
      else validateParent env absolute
    | none => validateParent env absolute
  else
    .error ("Access denied - path outside allowed directories: " ++ absolute)

/-- The allowed-directories list computed at startup in `src/index.ts`:
`args.map((dir) => normalizePath(path.resolve(expandHome(dir))))`. -/
def startupAllowedDirs (cwd home : String) (args : List String) :
    List String :=
  args.map fun dir => normalizePath (resolveAbs cwd (expandHome home dir))

/-- Genuine directory containment: `p` is `dir` itself or lies below it
past a separator boundary. -/
def withinDir (dir p : String) : Bool := p == dir || jsStartsWith p (dir ++ "/")

/-- Environment of the prefix-admission failing input: the single allowed
root is `/data`, and `/database/secret.txt` exists and is no symlink. -/
def bugEnv : PathEnv :=
  { allowedDirectories := startupAllowedDirs "/" "/home/user" ["/data"]
    realpath := fun s =>
      if s = "/database/secret.txt" then some "/database/secret.txt" else none
    cwd := "/"
    home := "/home/user" }

/-- Environment of the symlink failing input: the single allowed root is
`/data`; `/data/link.txt` is a symlink whose target resolves to
`/outside/target.txt`. -/
def bugEnv2 : PathEnv :=
  { allowedDirectories := startupAllowedDirs "/" "/home/user" ["/data"]
    realpath := fun s =>
      if s = "/data/link.txt" then some "/outside/target.txt"
      else if s = "/data" then some "/data" else none
    cwd := "/"
    home := "/home/user" }

/-- C1 fails on the code, two ways.  (1) With allowed root `/data`, the
sibling path `/database/secret.txt` — which resolves to itself and lies
inside no allowed directory — is admitted, because the check is a bare
string-prefix test.  (2) With the symlink `/data/link.txt` resolving to
`/outside/target.txt`, the path is still admitted: the symlink-target
rejection is swallowed by the surrounding `catch` and the parent-directory
fallback accepts. -/
theorem validatePath_admission_bug :
    (validatePath bugEnv "/database/secret.txt" = .ok "/database/secret.txt" ∧
      bugEnv.realpath "/database/secret.txt" = some "/database/secret.txt" ∧
      (bugEnv.allowedDirectories.all fun dir =>
        !withinDir dir "/database/secret.txt") = true) ∧
    (validatePath bugEnv2 "/data/link.txt" = .ok "/data/link.txt" ∧
      bugEnv2.realpath "/data/link.txt" = some "/outside/target.txt" ∧
      (bugEnv2.allowedDirectories.all fun dir =>
        !withinDir dir "/outside/target.txt") = true) :=
  ⟨⟨rfl, rfl, rfl⟩, ⟨rfl, rfl, rfl⟩⟩

/-- Environment of the case-sensitivity counterexample: allowed root
`/a`; on disk (case-sensitive) only the directory `/a/DIR` exists. -/
def caseEnv : PathEnv :=
  { allowedDirectories := startupAllowedDirs "/" "/home/user" ["/a"]
    realpath := fun s => if s = "/a/DIR" then some "/a/DIR" else none
    cwd := "/"
    home := "/home/user" }

/-- Counterexample to C10 as stated: `/a/DIR/f` and `/a/dir/f` differ
only in letter case, yet on a case-sensitive filesystem where only
`/a/DIR` exists, `validatePath` admits the former (via the
parent-directory fallback) and rejects the latter — the
existence/symlink checks consult the filesystem with the original-case
path. -/
theorem validatePath_case_counterexample :
    lowerStr "/a/DIR/f" = lowerStr "/a/dir/f" ∧
    validatePath caseEnv "/a/DIR/f" = .ok "/a/DIR/f" ∧
    validatePath caseEnv "/a/dir/f" =
      .error "Parent directory does not exist: /a/dir" :=
  ⟨rfl, rfl, rfl⟩

/-- C10 (amended): the string-containment step of path admission is
case-insensitive — for requested paths that differ only in letter case,
the lowercased normalised path `validatePath` checks against the allowed
directories is identical, so the prefix check admits one exactly when it
admits the other.  (Full admission can still differ between case
variants, as the counterexample shows, because `fs.realpath` receives
the original-case path.) -/
theorem validatePath_prefix_check_case_insensitive (env : PathEnv)
    (p q : String) (h : lowerStr p = lowerStr q) :
    normalizePath (resolveAbs env.cwd (expandHome env.home p)) =
      normalizePath (resolveAbs env.cwd (expandHome env.home q)) ∧
    isPathAllowed env
        (normalizePath (resolveAbs env.cwd (expandHome env.home p))) =
      isPathAllowed env
        (normalizePath (resolveAbs env.cwd (expandHome env.home q))) := by
  have hn : normalizePath (resolveAbs env.cwd (expandHome env.home p)) =
      normalizePath (resolveAbs env.cwd (expandHome env.home q)) :=
    normalizePath_congr (resolveAbs_lower (expandHome_lower h))
  exact ⟨hn, by rw [hn]⟩

/-- Witness for C10 (amended) at `/A/b.txt` versus `/a/B.TXT`. -/
theorem validatePath_prefix_check_case_insensitive_witness :
    lowerStr "/A/b.txt" = lowerStr "/a/B.TXT" ∧
    normalizePath (resolveAbs caseEnv.cwd (expandHome caseEnv.home "/A/b.txt")) =
      normalizePath (resolveAbs caseEnv.cwd (expandHome caseEnv.home "/a/B.TXT")) ∧
    isPathAllowed caseEnv
        (normalizePath (resolveAbs caseEnv.cwd
          (expandHome caseEnv.home "/A/b.txt"))) =
      isPathAllowed caseEnv
        (normalizePath (resolveAbs caseEnv.cwd
          (expandHome caseEnv.home "/a/B.TXT"))) := by
  have h : lowerStr "/A/b.txt" = lowerStr "/a/B.TXT" := rfl
  have hc := validatePath_prefix_check_case_insensitive caseEnv
    "/A/b.txt" "/a/B.TXT" h
  exact ⟨h, hc.1, hc.2⟩

/-! ## File editing against a filesystem, diff, line info

The filesystem is a partial map from paths to contents; `editFile`
returns the diff text and the next filesystem state. -/

def Fs := String → Option String

def updateFs (fs : Fs) (p content : String) : Fs :=
  fun q => if q = p then some content else fs q

def commonPrefixLen : List String → List String → Nat
  | a :: as, b :: bs => if a = b then commonPrefixLen as bs + 1 else 0
  | _, _ => 0

/-- Modelled from the spec: the Diff Renderer (§4.3;
`src/utils` diff helper is not in the tree) — a deterministic line diff:
common leading and trailing lines are stripped, removed lines are
prefixed `-`, added lines `+`. -/
def renderDiff (original new : String) : String :=
  let o := splitLines original
  let n := splitLines new
  let pre := commonPrefixLen o n
  let o2 := o.drop pre
  let n2 := n.drop pre
  let suf := commonPrefixLen o2.reverse n2.reverse
  let removed := (o2.take (o2.length - suf)).map (fun l => "-" ++ l)
  let added := (n2.take (n2.length - suf)).map (fun l => "+" ++ l)
  "diff\n" ++ String.intercalate "\n" (removed ++ added)

/-- Modelled from the spec: `editFile` (`src/utils/fileEditor.ts` is not
in the tree) — read the file, run the edit engine, write the result back
unless `dryRun`, and return the diff text in every case. -/
def editFile (fs : Fs) (p : String) (ops : List EditOp) (dryRun : Bool) :
    Except String (String × Fs) :=
  match fs p with
  | none => .error ("File not found: " ++ p)
  | some content =>
    match editContent content ops with
    | .error e => .error (renderEditError e)
    | .ok newContent =>
      .ok (renderDiff content newContent,
        if dryRun then fs else updateFs fs p newContent)

/-- Modelled from the spec: `getLineInfo` (Line-Context Reader, §4.4 and
§6; `src/utils/lineInfo.ts` is not in the tree).  Policy choice fixed
here per §9: the whole call fails on the first requested line number
beyond the file's line count. -/
def getLineInfo (fs : Fs) (p : String) (lineNumbers : List Nat)
    (context : Nat) : Except String String :=
  match fs p with
  | none => .error ("File not found: " ++ p)
  | some content =>
    let lines := splitLines content
    match lineNumbers.find? (fun n => lines.length < n || n == 0) with
    | some n => .error ("Line " ++ toString n ++ " does not exist in file")
    | none =>
      .ok (String.intercalate "\n" (lineNumbers.map fun n =>
        let lo := n - 1 - context
        toString n ++ ": " ++
          String.intercalate "\n" ((lines.drop lo).take (n + context - lo))))

/-! ## The request handler (C5, C7, C9) -/

structure EditFileArgs where
  p : String
  e : List EditOp
  dryRun : Bool

structure GetLineArgs where
  path : String
  lineNumbers : List Nat
  context : Nat

/-- Outcome of zod argument parsing: a well-typed value, or a schema
failure carrying its rendered message. -/
inductive ParsedArgs (α : Type) where
  | ok (a : α)
  | malformed (msg : String)

/-- A tool-call request as dispatched on `request.params.name`. -/
inductive Request where
  | editFileLines (args : ParsedArgs EditFileArgs)
  | approveEditReq (args : ParsedArgs String)
  | getFileLines (args : ParsedArgs GetLineArgs)
  | unknownTool (name : String)

/-- The structured tool response: content text plus the `isError` flag. -/
structure Response where
  text : String
  isError : Bool
deriving DecidableEq, Repr

/-- Process state threaded through a request: filesystem, pending-edit
store, token counter, clock (ms). -/
structure ServerState where
  fs : Fs
  store : StateStore
  nextTokenId : Nat
  now : Nat

def freshToken (id : Nat) : String := "state-" ++ toString id

def errResponse (msg : String) : Response := ⟨"Error: " ++ msg, true⟩

def okResponse (text : String) : Response := ⟨text, false⟩

/-- The `CallToolRequestSchema` handler of `src/index.ts`.  Each branch's
`try/catch` converts a failing sub-operation into an error-flagged
response; schema failures and unknown tools are thrown to the outer
`catch`, which does the same.  (`approveEdit` itself is modelled from
the spec: consume the token, then re-apply the stored batch against the
current file content; the token stays consumed if the re-application
fails.) -/
def handleRequest (env : PathEnv) (st : ServerState) (req : Request) :
    Response × ServerState :=
  match req with
  | .editFileLines (.malformed msg) =>
    (errResponse ("Invalid arguments: " ++ msg), st)
  | .editFileLines (.ok args) =>
    match validatePath env args.p with
    | .error msg => (errResponse msg, st)
    | .ok validPath =>
      match editFile st.fs validPath args.e args.dryRun with
      | .error msg => (errResponse msg, st)
      | .ok (diff, fs') =>
        if args.dryRun then
          let token := freshToken st.nextTokenId
          let st' : ServerState :=
            { fs := fs'
              store := saveState st.store st.now token validPath args.e
              nextTokenId := st.nextTokenId + 1
              now := st.now }
          (okResponse (diff ++ "\nState ID: " ++ token ++
            "\nUse this ID with approve_edit to apply the changes."), st')
        else (okResponse diff, { st with fs := fs' })
  | .approveEditReq (.malformed msg) =>
    (errResponse ("Invalid arguments: " ++ msg), st)
  | .approveEditReq (.ok stateId) =>
    match consumeState st.store st.now stateId with
    | none => (errResponse "Invalid or expired state ID", st)
    | some (entry, store') =>
      match editFile st.fs entry.path entry.batch false with
      | .error msg => (errResponse msg, { st with store := store' })
      | .ok (diff, fs') =>
        (okResponse diff, { st with fs := fs', store := store' })
  | .getFileLines (.malformed msg) =>
    (errResponse ("Invalid arguments for get_line_info: " ++ msg), st)
  | .getFileLines (.ok args) =>
    match validatePath env args.path with
    | .error msg => (errResponse msg, st)
    | .ok validPath =>
      match getLineInfo st.fs validPath args.lineNumbers args.context with
      | .error msg => (errResponse msg, st)
      | .ok text => (okResponse text, st)
  | .unknownTool name => (errResponse ("Unknown tool: " ++ name), st)

lemma isPrefixOf_self_append (a b : List Char) : a.isPrefixOf (a ++ b) = true := by
  induction a with
  | nil => simp [List.isPrefixOf]
  | cons c rest ih => simp [List.isPrefixOf, ih]

lemma jsStartsWith_append (a b : String) : jsStartsWith (a ++ b) a = true := by
  unfold jsStartsWith
  rw [String.data_append]
  exact isPrefixOf_self_append _ _

lemma editFile_dryRun_fs {fs : Fs} {p : String} {ops : List EditOp}
    {diff : String} {fs' : Fs}
    (h : editFile fs p ops true = .ok (diff, fs')) : fs' = fs := by
  unfold editFile at h
  cases hc : fs p with
  | none => rw [hc] at h; exact absurd h (by simp)
  | some content =>
    rw [hc] at h
    dsimp only at h
    cases he : editContent content ops with
    | error e => rw [he] at h; exact absurd h (by simp)
    | ok newContent =>
      rw [he] at h
      dsimp only at h
      simp only [Except.ok.injEq, Prod.mk.injEq] at h
      exact h.2.symm

/-- C5: a dry-run edit_file_lines call leaves the filesystem untouched
(every path's content after the call is the content before it), and on
success its response still carries the rendered diff of the proposed
change. -/
theorem dryRun_no_mutation (env : PathEnv) (st : ServerState)
    (args : EditFileArgs) (hdry : args.dryRun = true) :
    (handleRequest env st (.editFileLines (.ok args))).2.fs = st.fs ∧
    (∀ validPath content newContent,
      validatePath env args.p = .ok validPath →
      st.fs validPath = some content →
      editContent content args.e = .ok newContent →
      (handleRequest env st (.editFileLines (.ok args))).1 =
        okResponse (renderDiff content newContent ++ "\nState ID: " ++
          freshToken st.nextTokenId ++
          "\nUse this ID with approve_edit to apply the changes.")) := by
  obtain ⟨p, e, dryRun⟩ := args
  dsimp only at hdry
  subst hdry
  constructor
  · unfold handleRequest
    dsimp only
    cases hv : validatePath env p with
    | error msg => rfl
    | ok vp =>
      dsimp only
      cases he : editFile st.fs vp e true with
      | error msg => rfl
      | ok r =>
        obtain ⟨diff, fs'⟩ := r
        dsimp only
        rw [if_pos rfl]
        exact editFile_dryRun_fs he
  · intro vp content newContent hvp hcontent hedit
    have he : editFile st.fs vp e true =
        .ok (renderDiff content newContent, st.fs) := by
      unfold editFile
      rw [hcontent]
      dsimp only
      rw [hedit]
      rfl
    unfold handleRequest
    dsimp only
    rw [hvp]
    dsimp only
    rw [he]
    rfl

def demoFs : Fs := fun q =>
  if q = "/data/f.txt" then some "line 1\nline 2\nline 3\n" else none

def demoEnv : PathEnv :=
  { allowedDirectories := startupAllowedDirs "/" "/home/user" ["/data"]
    realpath := fun s => if s = "/data/f.txt" then some "/data/f.txt" else none
    cwd := "/"
    home := "/home/user" }

def demoState : ServerState :=
  { fs := demoFs, store := [], nextTokenId := 0, now := 0 }

/-- Witness for C5 at a concrete dry-run call on the test file. -/
theorem dryRun_no_mutation_witness :
    (handleRequest demoEnv demoState
      (.editFileLines (.ok ⟨"/data/f.txt", [⟨2, 2, "replaced line"⟩],
        true⟩))).2.fs = demoState.fs ∧
    (handleRequest demoEnv demoState
      (.editFileLines (.ok ⟨"/data/f.txt", [⟨2, 2, "replaced line"⟩],
        true⟩))).1 =
      okResponse (renderDiff "line 1\nline 2\nline 3\n"
        "line 1\nreplaced line\nline 3\n" ++ "\nState ID: " ++
        freshToken demoState.nextTokenId ++
        "\nUse this ID with approve_edit to apply the changes.") := by
  have h := dryRun_no_mutation demoEnv demoState
    ⟨"/data/f.txt", [⟨2, 2, "replaced line"⟩], true⟩ rfl
  exact ⟨h.1, h.2 "/data/f.txt" "line 1\nline 2\nline 3\n"
    "line 1\nreplaced line\nline 3\n" rfl rfl rfl⟩

/-- C9: whenever a dry-run edit_file_lines call fails — path not
admitted, file unreadable, or batch validation failed — no pending-edit
entry is created and the response is an error rather than a token-bearing
success. -/
theorem dryRun_failure_no_token (env : PathEnv) (st : ServerState)
    (args : EditFileArgs)
    (herr : (handleRequest env st
      (.editFileLines (.ok args))).1.isError = true) :
    (handleRequest env st (.editFileLines (.ok args))).2.store = st.store ∧
    jsStartsWith (handleRequest env st (.editFileLines (.ok args))).1.text
      "Error: " = true := by
  obtain ⟨p, e, dryRun⟩ := args
  unfold handleRequest at herr ⊢
  dsimp only at herr ⊢
  cases hv : validatePath env p with
  | error msg =>
    dsimp only
    exact ⟨rfl, jsStartsWith_append "Error: " msg⟩
  | ok vp =>
    rw [hv] at herr
    dsimp only at herr ⊢
    cases he : editFile st.fs vp e dryRun with
    | error msg =>
      dsimp only
      exact ⟨rfl, jsStartsWith_append "Error: " msg⟩
    | ok r =>
      obtain ⟨diff, fs'⟩ := r
      rw [he] at herr
      dsimp only at herr
      cases dryRun with
      | true => simp [okResponse] at herr
      | false => simp [okResponse] at herr

/-- Witness for C9: a dry-run call on a path outside every allowed
directory fails, and the store stays empty. -/
theorem dryRun_failure_no_token_witness :
    (handleRequest demoEnv demoState
      (.editFileLines (.ok ⟨"/etc/passwd", [], true⟩))).2.store =
      demoState.store ∧
    jsStartsWith (handleRequest demoEnv demoState
      (.editFileLines (.ok ⟨"/etc/passwd", [], true⟩))).1.text
      "Error: " = true :=
  dryRun_failure_no_token demoEnv demoState ⟨"/etc/passwd", [], true⟩ rfl

/-- The failure condition of a request: argument-schema failure, unknown
tool name, path-admission failure, token failure, or a failing
file/engine operation. -/
def requestFails (env : PathEnv) (st : ServerState) : Request → Prop
  | .editFileLines (.malformed _) => True
  | .editFileLines (.ok args) =>
    (∀ vp, validatePath env args.p ≠ .ok vp) ∨
    (∃ vp, validatePath env args.p = .ok vp ∧
      ∀ r, editFile st.fs vp args.e args.dryRun ≠ .ok r)
  | .approveEditReq (.malformed _) => True
  | .approveEditReq (.ok stateId) =>
    consumeState st.store st.now stateId = none ∨
    (∃ entry store',
      consumeState st.store st.now stateId = some (entry, store') ∧
      ∀ r, editFile st.fs entry.path entry.batch false ≠ .ok r)
  | .getFileLines (.malformed _) => True
  | .getFileLines (.ok args) =>
    (∀ vp, validatePath env args.path ≠ .ok vp) ∨
    (∃ vp, validatePath env args.path = .ok vp ∧
      ∀ r, getLineInfo st.fs vp args.lineNumbers args.context ≠ .ok r)
  | .unknownTool _ => True

/-- C7: the handler is a total function into structured responses (the
shallow-embedding form of "never throws across the protocol boundary");
a request fails exactly when the response carries `isError = true`, and
every such response's text is a human-readable message beginning
"Error: ". -/
theorem handleRequest_structured_errors (env : PathEnv) (st : ServerState)
    (req : Request) :
    ((handleRequest env st req).1.isError = true ↔ requestFails env st req) ∧
    (requestFails env st req →
      jsStartsWith (handleRequest env st req).1.text "Error: " = true) := by
  cases req with
  | editFileLines pa =>
    cases pa with
    | malformed msg =>
      refine ⟨⟨fun _ => trivial, fun _ => rfl⟩,
        fun _ => jsStartsWith_append "Error: " _⟩
    | ok args =>
      obtain ⟨p, e, dryRun⟩ := args
      cases hv : validatePath env p with
      | error msg =>
        refine ⟨⟨fun _ => Or.inl (fun vp h => by rw [hv] at h; cases h),
          fun _ => ?_⟩, fun _ => ?_⟩
        · unfold handleRequest
          dsimp only
          rw [hv]
          rfl
        · unfold handleRequest
          dsimp only
          rw [hv]
          exact jsStartsWith_append "Error: " msg
      | ok vp =>
        cases he : editFile st.fs vp e dryRun with
        | error msg =>
          refine ⟨⟨fun _ =>
            Or.inr ⟨vp, hv, fun r hr => by rw [he] at hr; cases hr⟩,
            fun _ => ?_⟩, fun _ => ?_⟩
          · unfold handleRequest
            dsimp only
            rw [hv]
            dsimp only
            rw [he]
            rfl
          · unfold handleRequest
            dsimp only
            rw [hv]
            dsimp only
            rw [he]
            exact jsStartsWith_append "Error: " msg
        | ok r =>
          obtain ⟨diff, fs'⟩ := r
          have hok : (handleRequest env st
              (.editFileLines (.ok ⟨p, e, dryRun⟩))).1.isError = false := by
            unfold handleRequest
            dsimp only
            rw [hv]
            dsimp only
            rw [he]
            cases dryRun <;> rfl
          have hnf : ¬ requestFails env st
              (.editFileLines (.ok ⟨p, e, dryRun⟩)) := by
            rintro (hall | ⟨vp', hvp', hall⟩)
            · exact hall vp hv
            · rw [hv] at hvp'
              injection hvp' with hvv
              subst hvv
              exact hall (diff, fs') he
          refine ⟨⟨fun h => ?_, fun hf => absurd hf hnf⟩,
            fun hf => absurd hf hnf⟩
          rw [hok] at h
          cases h
  | approveEditReq pa =>
    cases pa with
    | malformed msg =>
      refine ⟨⟨fun _ => trivial, fun _ => rfl⟩,
        fun _ => jsStartsWith_append "Error: " _⟩
    | ok stateId =>
      cases hc : consumeState st.store st.now stateId with
      | none =>
        refine ⟨⟨fun _ => Or.inl hc, fun _ => ?_⟩, fun _ => ?_⟩
        · unfold handleRequest
          dsimp only
          rw [hc]
          rfl
        · unfold handleRequest
          dsimp only
          rw [hc]
          exact jsStartsWith_append "Error: " "Invalid or expired state ID"
      | some r =>
        obtain ⟨entry, store'⟩ := r
        cases he : editFile st.fs entry.path entry.batch false with
        | error msg =>
          refine ⟨⟨fun _ =>
            Or.inr ⟨entry, store', hc, fun r hr => by rw [he] at hr; cases hr⟩,
            fun _ => ?_⟩, fun _ => ?_⟩
          · unfold handleRequest
            dsimp only
            rw [hc]
            dsimp only
            rw [he]
            rfl
          · unfold handleRequest
            dsimp only
            rw [hc]
            dsimp only
            rw [he]
            exact jsStartsWith_append "Error: " msg
        | ok r =>
          obtain ⟨diff, fs'⟩ := r
          have hok : (handleRequest env st
              (.approveEditReq (.ok stateId))).1.isError = false := by
            unfold handleRequest
            dsimp only
            rw [hc]
            dsimp only
            rw [he]
            rfl
          have hnf : ¬ requestFails env st (.approveEditReq (.ok stateId)) := by
            rintro (hnone | ⟨entry', store2, hc', hall⟩)
            · rw [hc] at hnone; cases hnone
            · rw [hc] at hc'
              injection hc' with hpair
              rw [show entry' = entry from congrArg Prod.fst hpair.symm] at hall
              exact hall (diff, fs') he
          refine ⟨⟨fun h => ?_, fun hf => absurd hf hnf⟩,
            fun hf => absurd hf hnf⟩
          rw [hok] at h
          cases h
  | getFileLines pa =>
    cases pa with
    | malformed msg =>
      refine ⟨⟨fun _ => trivial, fun _ => rfl⟩,
        fun _ => jsStartsWith_append "Error: " _⟩
    | ok args =>
      obtain ⟨p, nums, ctx⟩ := args
      cases hv : validatePath env p with
      | error msg =>
        refine ⟨⟨fun _ => Or.inl (fun vp h => by rw [hv] at h; cases h),
          fun _ => ?_⟩, fun _ => ?_⟩
        · unfold handleRequest
          dsimp only
          rw [hv]
          rfl
        · unfold handleRequest
          dsimp only
          rw [hv]
          exact jsStartsWith_append "Error: " msg
      | ok vp =>
        cases hg : getLineInfo st.fs vp nums ctx with
        | error msg =>
          refine ⟨⟨fun _ =>
            Or.inr ⟨vp, hv, fun r hr => by rw [hg] at hr; cases hr⟩,
            fun _ => ?_⟩, fun _ => ?_⟩
          · unfold handleRequest
            dsimp only
            rw [hv]
            dsimp only
            rw [hg]
            rfl
          · unfold handleRequest
            dsimp only
            rw [hv]
            dsimp only
            rw [hg]
            exact jsStartsWith_append "Error: " msg
        | ok text =>
          have hok : (handleRequest env st
              (.getFileLines (.ok ⟨p, nums, ctx⟩))).1.isError = false := by
            unfold handleRequest
            dsimp only
            rw [hv]
            dsimp only
            rw [hg]
            rfl
          have hnf : ¬ requestFails env st
              (.getFileLines (.ok ⟨p, nums, ctx⟩)) := by
            rintro (hall | ⟨vp', hvp', hall⟩)
            · exact hall vp hv
            · rw [hv] at hvp'
              injection hvp' with hvv
              subst hvv
              exact hall text hg
          refine ⟨⟨fun h => ?_, fun hf => absurd hf hnf⟩,
            fun hf => absurd hf hnf⟩
          rw [hok] at h
          cases h
  | unknownTool name =>
    refine ⟨⟨fun _ => trivial, fun _ => rfl⟩,
      fun _ => jsStartsWith_append "Error: " _⟩

/-- Witness for C7 at a concrete unknown-tool request. -/
theorem handleRequest_structured_errors_witness :
    (handleRequest demoEnv demoState (.unknownTool "bad_tool")).1.isError =
      true ∧
    jsStartsWith (handleRequest demoEnv demoState
      (.unknownTool "bad_tool")).1.text "Error: " = true := by
  have h := handleRequest_structured_errors demoEnv demoState
    (.unknownTool "bad_tool")
  exact ⟨h.1.mpr trivial, h.2 trivial⟩

end EditFileLines
